import Mathlib

/-!
# Studio-Agent: realtime audio pipeline, verified model

A shallow embedding of the realtime audio capture / playback-scheduling
subsystem of `src/components/LiveAgent.tsx`, together with a model of the
wire encoder (`createPcmBlob` / `audioUtils`, whose source file is not part
of the checked tree and is therefore reconstructed from the design
document's description of the Signal Framer).

Conventions of the embedding:
* React `useRef` handles of the form `T | null` become `Bool` fields
  (`true` = the handle is currently non-null / installed).
* The audio clocks' `currentTime` values are passed to each handler as an
  explicit rational parameter `now`.
* `AudioBufferSourceNode`s in the active set are identified by the natural
  number counter `nextId`, incremented each time a segment is created.
* `decodeAudioData` (from the absent `audioUtils.ts`) is an abstract
  parameter `decode : List Nat → Option ℚ` returning the decoded buffer's
  duration, `none` modelling a decode failure (a thrown exception, which
  aborts the rest of the async `onmessage` handler).
* `Math.sqrt` results are passed as a parameter `rms` characterised by the
  hypotheses `0 ≤ rms` and `rms ^ 2 = rmsSq block`; square roots of
  rationals need not be rational, so the handlers take the root as input
  exactly as line 149 of the source consumes the value computed on line 148.
-/

namespace StudioAgent

/-- An inbound message from the live channel, as read by `onmessage`
(`LiveAgent.tsx` lines 160–189): the optional base64 audio chunk
`message.serverContent?.modelTurn?.parts?.[0]?.inlineData?.data` (modelled
as the decoded byte list) and the `message.serverContent?.interrupted`
flag. -/
structure ServerMessage where
  audioData : Option (List Nat)
  interrupted : Bool
deriving Repr, DecidableEq

/-- The mutable state of one `LiveAgent` component instance: the `useRef`
handles (`audioContextRef`, `inputContextRef`, `streamRef`, `processorRef`,
`sourceRef`, `sessionPromiseRef`, modelled as presence booleans), the React
state (`connected`, `error`, `volume`) and the scheduler state
(`nextStartTimeRef`, `activeSourcesRef` plus the id counter used to name
created sources). -/
structure AgentState where
  audioContext : Bool
  inputContext : Bool
  streamActive : Bool
  processor : Bool
  sourceNode : Bool
  sessionPromise : Bool
  connected : Bool
  errorShown : Bool
  volume : ℚ
  nextStartTime : ℚ
  activeSources : List Nat
  nextId : Nat
deriving Repr, DecidableEq

/-- Result of one `onmessage` invocation, recording the observable effects:
the segment scheduled by the audio branch (id, scheduled start time,
duration), whether the decode threw (aborting the handler), and the ids of
the sources stopped by the interruption branch. -/
structure MessageResult where
  scheduled : Option (Nat × ℚ × ℚ)
  decodeFailed : Bool
  stopped : List Nat
deriving Repr, DecidableEq

/-- `stopAudio` (`LiveAgent.tsx` lines 78–111): disconnects and nulls the
processor and source nodes, stops the stream tracks, closes and nulls the
input context, stops every active output source and clears the set, closes
and nulls the output context, then resets `connected` and `volume`.
Returns the new state together with the list of source ids that were
stopped.  `nextStartTimeRef` and `sessionPromiseRef` are left untouched,
exactly as in the source. -/
def stopAudio (s : AgentState) : AgentState × List Nat :=
  ({ s with
      processor := false
      sourceNode := false
      streamActive := false
      inputContext := false
      activeSources := []
      audioContext := false
      connected := false
      volume := 0 },
   s.activeSources)

/-- The interruption branch of `onmessage` (`LiveAgent.tsx` lines
184–188): if `message.serverContent?.interrupted` is set, stop every
source in the active set, clear the set and reset `nextStartTimeRef` to 0.
`sched` is the segment already scheduled by the audio branch of the same
message, threaded through into the result record. -/
def handleInterruption (s : AgentState) (m : ServerMessage)
    (sched : Option (Nat × ℚ × ℚ)) : AgentState × MessageResult :=
  if m.interrupted then
    ({ s with activeSources := [], nextStartTime := 0 },
     ⟨sched, false, s.activeSources⟩)
  else
    (s, ⟨sched, false, []⟩)

/-- `onmessage` (`LiveAgent.tsx` lines 160–189).  Audio branch first: when
the message carries audio and `audioContextRef.current` is non-null, set
`nextStartTime := max nextStartTime now` (line 165), decode; on decode
failure the exception aborts the handler (so the interruption branch is
not reached); on success schedule a source at the current `nextStartTime`
(line 178), advance `nextStartTime` by the buffer duration (line 179) and
add the source to the active set (line 180).  Then the interruption branch
(lines 184–188). -/
def handleMessage (decode : List Nat → Option ℚ) (now : ℚ)
    (s : AgentState) (m : ServerMessage) : AgentState × MessageResult :=
  match m.audioData, s.audioContext with
  | some chunk, true =>
    let s1 := { s with nextStartTime := max s.nextStartTime now }
    match decode chunk with
    | none => (s1, ⟨none, true, []⟩)
    | some dur =>
      let s2 := { s1 with
          nextStartTime := s1.nextStartTime + dur
          activeSources := s1.activeSources ++ [s1.nextId]
          nextId := s1.nextId + 1 }
      handleInterruption s2 m (some (s1.nextId, s1.nextStartTime, dur))
  | _, _ => handleInterruption s m none

/-- Mean of the squared samples of one capture block: `sum / length` with
`sum += inputData[i] * inputData[i]` (`LiveAgent.tsx` lines 146–148).  The
block's RMS is the square root of this value. -/
def rmsSq (block : List ℚ) : ℚ :=
  (block.map fun x => x * x).sum / block.length

/-- The volume update of `LiveAgent.tsx` line 149:
`setVolume(v => Math.max(rms, v * 0.9))`. -/
def updateVolume (rms v : ℚ) : ℚ :=
  max rms (v * (9 / 10))

/-- Modelled from the spec: `src/utils/audioUtils.ts` is not part of the
checked tree; §4.1 says the Signal Framer clamps each floating-point
sample to [-1, 1], with malformed (NaN / undefined) samples clamped to 0.
A sample is `Option ℚ`, `none` standing for a malformed value. -/
def clampSample : Option ℚ → ℚ
  | none => 0
  | some v => max (-1) (min 1 v)

/-- Modelled from the spec: scaling of one clamped sample to a 16-bit
signed integer (§4.1 "converts each sample from floating-point range
[-1, 1] to a 16-bit signed integer by clamping and scaling"). -/
def quantize (x : ℚ) : ℤ :=
  ⌊x * 32767⌋

/-- Inverse scaling used to read a 16-bit sample back as a float. -/
def dequantize (q : ℤ) : ℚ :=
  (q : ℚ) / 32767

/-- The unsigned 16-bit (two's-complement) representation of a 16-bit
signed integer. -/
def u16ofInt (q : ℤ) : Nat :=
  (q % 65536).toNat

/-- Modelled from the spec: little-endian packing of one 16-bit signed
integer into two bytes (§4.1 "packs little-endian"). -/
def int16ToBytes (q : ℤ) : List Nat :=
  [u16ofInt q % 256, u16ofInt q / 256]

/-- Reassemble one 16-bit signed integer from its two little-endian
bytes. -/
def int16OfBytes (b0 b1 : Nat) : ℤ :=
  if b0 + 256 * b1 < 32768 then ((b0 + 256 * b1 : Nat) : ℤ)
  else ((b0 + 256 * b1 : Nat) : ℤ) - 65536

/-- Decode a byte stream as consecutive little-endian 16-bit signed
integers. -/
def bytesToInt16s : List Nat → List ℤ
  | b0 :: b1 :: rest => int16OfBytes b0 b1 :: bytesToInt16s rest
  | _ => []

/-- The standard base64 alphabet, as ASCII codes indexed by sextet
value. -/
def b64char (i : Nat) : Nat :=
  if i < 26 then 65 + i
  else if i < 52 then 97 + (i - 26)
  else if i < 62 then 48 + (i - 52)
  else if i = 62 then 43
  else 47

/-- Inverse of the base64 alphabet (ASCII code back to sextet value). -/
def b64index (c : Nat) : Nat :=
  if 65 ≤ c ∧ c ≤ 90 then c - 65
  else if 97 ≤ c ∧ c ≤ 122 then c - 97 + 26
  else if 48 ≤ c ∧ c ≤ 57 then c - 48 + 52
  else if c = 43 then 62
  else 63

/-- Modelled from the spec: base64 encoding of a byte sequence (§4.1
"base64-encodes the byte sequence"; `audioUtils.ts` absent).  Three bytes
become four alphabet characters; a final group of one or two bytes is
padded with `=` (ASCII 61). -/
def b64encode : List Nat → List Nat
  | [] => []
  | [b0] => [b64char (b0 / 4), b64char (b0 % 4 * 16), 61, 61]
  | [b0, b1] =>
    [b64char (b0 / 4), b64char (b0 % 4 * 16 + b1 / 16),
     b64char (b1 % 16 * 4), 61]
  | b0 :: b1 :: b2 :: rest =>
    b64char (b0 / 4) :: b64char (b0 % 4 * 16 + b1 / 16) ::
    b64char (b1 % 16 * 4 + b2 / 64) :: b64char (b2 % 64) :: b64encode rest

/-- Base64 decoding (the model of `base64ToUint8Array` from the absent
`audioUtils.ts`): each four-character group yields three bytes, minus the
trailing padding. -/
def b64decode : List Nat → List Nat
  | c0 :: c1 :: c2 :: c3 :: rest =>
    if c2 = 61 then [b64index c0 * 4 + b64index c1 / 16]
    else if c3 = 61 then
      [b64index c0 * 4 + b64index c1 / 16,
       b64index c1 % 16 * 16 + b64index c2 / 4]
    else
      (b64index c0 * 4 + b64index c1 / 16) ::
      (b64index c1 % 16 * 16 + b64index c2 / 4) ::
      (b64index c2 % 4 * 64 + b64index c3) :: b64decode rest
  | _ => []

/-- Modelled from the spec: `createPcmBlob` (§4.1 Signal Framer,
`audioUtils.ts` absent from the tree): clamp each sample, scale to a
16-bit signed integer, pack little-endian, base64-encode.  The result is
the base64 character-code sequence of the payload's `data` field; the
accompanying descriptor is `audio/pcm;rate=16000`. -/
def createPcmBlob (samples : List (Option ℚ)) : List Nat :=
  b64encode ((samples.map fun s => int16ToBytes (quantize (clampSample s))).flatten)

/-- Decode an encoded payload back to float samples: base64-decode,
read little-endian 16-bit integers, un-scale. -/
def decodePcmPayload (payload : List Nat) : List ℚ :=
  (bytesToInt16s (b64decode payload)).map dequantize

/-- `onaudioprocess` (`LiveAgent.tsx` lines 143–155): update the volume
from the block's RMS (line 149), frame the block with `createPcmBlob`
(line 151) and send it over the session via
`sessionPromiseRef.current?.then(...)` (lines 152–154).  The optional
chaining drops the payload when `sessionPromiseRef.current` is null; no
state other than `volume` is touched, so a dropped payload is never
buffered.  The returned `Option` is the payload handed to
`sendRealtimeInput`, `none` when it was dropped. -/
def onaudioprocess (s : AgentState) (block : List ℚ) (rms : ℚ) :
    AgentState × Option (List Nat) :=
  let s1 := { s with volume := updateVolume rms s.volume }
  if s.sessionPromise then (s1, some (createPcmBlob (block.map some)))
  else (s1, none)

/-- The state right after `startSession` has run up to the
`ai.live.connect` call (`LiveAgent.tsx` lines 113–129): both audio
contexts created, microphone stream acquired, session promise stored; the
capture tap (`processorRef`, `sourceRef`) is not yet installed — that
happens only in `onopen` — and the scheduler state still has its initial
values (`nextStartTimeRef = 0`, empty active set, `volume = 0`). -/
def startSessionState : AgentState where
  audioContext := true
  inputContext := true
  streamActive := true
  processor := false
  sourceNode := false
  sessionPromise := true
  connected := false
  errorShown := false
  volume := 0
  nextStartTime := 0
  activeSources := []
  nextId := 0

/-- The external stimuli that re-enter the component: the transport
callbacks (`onopen`, `onmessage`, `onclose`, `onerror`), the capture tap
firing, and the user pressing the stop button.  Message events carry the
output clock's current time; tap events carry the captured block and its
root-mean-square. -/
inductive Event where
  | evOpen : Event
  | evMessage (m : ServerMessage) (now : ℚ) : Event
  | evTap (block : List ℚ) (rms : ℚ) : Event
  | evClose : Event
  | evError : Event
  | evStop : Event
deriving Repr, DecidableEq

/-- Observable effects of one event: a payload handed to
`sendRealtimeInput`, a playback source scheduled with a start time and
duration, or a playback source stopped. -/
inductive Output where
  | sent (payload : List Nat) : Output
  | scheduledSeg (id : Nat) (start dur : ℚ) : Output
  | stoppedSeg (id : Nat) : Output
deriving Repr, DecidableEq

/-- One dispatch of the event loop.  `onopen` (`LiveAgent.tsx` lines
132–158) sets `connected` and, when the input context is still alive,
installs the capture tap (`sourceRef`, `processorRef`).  A tap event runs
`onaudioprocess` only when the processor is installed — with no processor
there is no callback, so the event is a no-op.  `onclose` and `onerror`
(lines 190–198) update the React state and run `stopAudio`; the stop
button (line 263) runs `stopAudio` directly. -/
def step (decode : List Nat → Option ℚ) (s : AgentState) :
    Event → AgentState × List Output
  | .evOpen =>
    let s1 := { s with connected := true }
    if s1.inputContext then
      ({ s1 with sourceNode := true, processor := true }, [])
    else (s1, [])
  | .evMessage m now =>
    let r := handleMessage decode now s m
    (r.1,
     (match r.2.scheduled with
      | some (i, st, d) => [Output.scheduledSeg i st d]
      | none => []) ++ r.2.stopped.map Output.stoppedSeg)
  | .evTap block rms =>
    if s.processor then
      let r := onaudioprocess s block rms
      (r.1, match r.2 with | some p => [Output.sent p] | none => [])
    else (s, [])
  | .evClose =>
    let r := stopAudio { s with connected := false }
    (r.1, r.2.map Output.stoppedSeg)
  | .evError =>
    let r := stopAudio { s with errorShown := true }
    (r.1, r.2.map Output.stoppedSeg)
  | .evStop =>
    let r := stopAudio s
    (r.1, r.2.map Output.stoppedSeg)

/-- Final state after dispatching a list of events in arrival order (the
host event loop runs each handler to completion before the next). -/
def runState (decode : List Nat → Option ℚ) (s : AgentState) :
    List Event → AgentState
  | [] => s
  | e :: es => runState decode (step decode s e).1 es

/-- Concatenated observable outputs of dispatching a list of events in
arrival order. -/
def runTrace (decode : List Nat → Option ℚ) (s : AgentState) :
    List Event → List Output
  | [] => []
  | e :: es => (step decode s e).2 ++ runTrace decode (step decode s e).1 es

/-- The ids of the segments scheduled along a trace, in trace order. -/
def schedIds (tr : List Output) : List Nat :=
  tr.filterMap fun o =>
    match o with
    | .scheduledSeg i _ _ => some i
    | _ => none

/-- The (start time, duration) pairs of the segments scheduled along a
trace, in trace order. -/
def schedTimes (tr : List Output) : List (ℚ × ℚ) :=
  tr.filterMap fun o =>
    match o with
    | .scheduledSeg _ st d => some (st, d)
    | _ => none

/-- Checks that along a trace every stopped segment id was scheduled
earlier in the trace (or belongs to `seen`, the ids scheduled before the
trace began). -/
def stopsAfterSchedules (seen : List Nat) : List Output → Bool
  | [] => true
  | .scheduledSeg i _ _ :: tr => stopsAfterSchedules (i :: seen) tr
  | .stoppedSeg i :: tr => seen.contains i && stopsAfterSchedules seen tr
  | .sent _ :: tr => stopsAfterSchedules seen tr

/-- One capture tap on an all-zero (silent) block of the source's device
block size (4096 samples): the RMS of the zero block is 0. -/
def silentTap (s : AgentState) : AgentState :=
  (onaudioprocess s (List.replicate 4096 0) 0).1

/-- Fold a list of capture taps (block together with its RMS) through
`onaudioprocess`, keeping only the state. -/
def processTaps (s : AgentState) : List (List ℚ × ℚ) → AgentState
  | [] => s
  | t :: ts => processTaps (onaudioprocess s t.1 t.2).1 ts

/-- A capture tap is well-formed when its samples lie in [-1, 1] and its
`rms` component is the (nonnegative) square root of the block's mean
square. -/
def ValidTap (t : List ℚ × ℚ) : Prop :=
  (∀ x ∈ t.1, -1 ≤ x ∧ x ≤ 1) ∧ 0 ≤ t.2 ∧ t.2 ^ 2 = rmsSq t.1

/-- An event is interruption-free when it is not a message carrying the
`interrupted` flag. -/
def NonInterrupt : Event → Prop
  | .evMessage m _ => m.interrupted = false
  | _ => True

/-! ## Helper lemmas -/

/-- `onmessage` touches only the scheduler fields (`nextStartTime`,
`activeSources`, `nextId`): every handle, every flag and the volume
survive one message dispatch unchanged. -/
theorem handleMessage_frame (decode : List Nat → Option ℚ) (now : ℚ)
    (s : AgentState) (m : ServerMessage) :
    (handleMessage decode now s m).1.audioContext = s.audioContext ∧
    (handleMessage decode now s m).1.inputContext = s.inputContext ∧
    (handleMessage decode now s m).1.streamActive = s.streamActive ∧
    (handleMessage decode now s m).1.processor = s.processor ∧
    (handleMessage decode now s m).1.sourceNode = s.sourceNode ∧
    (handleMessage decode now s m).1.sessionPromise = s.sessionPromise ∧
    (handleMessage decode now s m).1.connected = s.connected ∧
    (handleMessage decode now s m).1.errorShown = s.errorShown ∧
    (handleMessage decode now s m).1.volume = s.volume := by
  rcases m with ⟨ad, int⟩
  rcases ad with _ | c <;> cases hctx : s.audioContext <;> cases int <;>
    simp only [handleMessage, handleInterruption, hctx] <;>
    (try cases hdec : decode c) <;> simp [hctx]

/-- Characterization of a successful enqueue: with the output context
alive, decodable bytes and no interruption flag, `onmessage` schedules
the fresh source at `max nextStartTime now` and advances `nextStartTime`
to that start time plus the buffer's duration. -/
theorem enqueue_success_spec (decode : List Nat → Option ℚ) (now : ℚ)
    (s : AgentState) (c : List Nat) (d : ℚ)
    (hctx : s.audioContext = true) (hd : decode c = some d) :
    handleMessage decode now s ⟨some c, false⟩ =
      ({ s with
          nextStartTime := max s.nextStartTime now + d
          activeSources := s.activeSources ++ [s.nextId]
          nextId := s.nextId + 1 },
       ⟨some (s.nextId, max s.nextStartTime now, d), false, []⟩) := by
  simp [handleMessage, hctx, hd, handleInterruption]

/-! ## Claim theorems -/

/-- C8: teardown (`stopAudio`) is idempotent and total.  From any state it
uninstalls the capture tap (`processor`, `sourceNode`), stops the
microphone stream, stops every segment in the active set (the returned
list is exactly the previous active set) and clears the set, releases
both audio clock contexts, and resets the volume to 0; it is a total
function (never raises), and a second invocation returns the same state
and stops nothing. -/
theorem stopAudio_idempotent_and_releases (s : AgentState) :
    stopAudio (stopAudio s).1 = ((stopAudio s).1, []) ∧
    (stopAudio s).2 = s.activeSources ∧
    (stopAudio s).1.processor = false ∧
    (stopAudio s).1.sourceNode = false ∧
    (stopAudio s).1.streamActive = false ∧
    (stopAudio s).1.inputContext = false ∧
    (stopAudio s).1.audioContext = false ∧
    (stopAudio s).1.activeSources = [] ∧
    (stopAudio s).1.connected = false ∧
    (stopAudio s).1.volume = 0 := by
  simp [stopAudio]

/-- C10: after teardown the output audio context handle is null, so the
guard on line 163 skips the audio branch of `onmessage`: a subsequently
delivered audio-chunk message (one without the interruption flag) decodes
nothing, schedules nothing, and leaves the whole state — in particular
`nextStartTime` and the active-segment set — unchanged. -/
theorem message_after_stopAudio_noop (decode : List Nat → Option ℚ)
    (now : ℚ) (s : AgentState) (m : ServerMessage) (c : List Nat)
    (hm : m.audioData = some c) (hi : m.interrupted = false) :
    handleMessage decode now (stopAudio s).1 m =
      ((stopAudio s).1, ⟨none, false, []⟩) := by
  rcases m with ⟨ad, int⟩
  cases hm
  cases hi
  simp [handleMessage, handleInterruption, stopAudio]

/-- C10 witness. -/
theorem message_after_stopAudio_noop_witness :
    handleMessage (fun _ => some 1) 7 (stopAudio startSessionState).1
        ⟨some [0], false⟩ =
      ((stopAudio startSessionState).1, ⟨none, false, []⟩) :=
  message_after_stopAudio_noop (fun _ => some 1) 7 startSessionState
    ⟨some [0], false⟩ [0] rfl rfl

/-- C5 counterexample: the claim "nextStartTime has the same value after
the failed enqueue as before it" is false.  Line 165 of the source clamps
`nextStartTime` to the output clock **before** decoding, so with
`nextStartTime = 0`, clock time 5 and bytes whose decode fails, the failed
enqueue leaves `nextStartTime = 5 ≠ 0`. -/
theorem decode_failure_changes_nextStartTime :
    startSessionState.nextStartTime = 0 ∧
    (handleMessage (fun _ => none) 5 startSessionState
        ⟨some [0], false⟩).1.nextStartTime = 5 ∧
    (handleMessage (fun _ => none) 5 startSessionState
        ⟨some [0], false⟩).1.nextStartTime ≠ startSessionState.nextStartTime := by
  refine ⟨rfl, rfl, ?_⟩
  simp [handleMessage, startSessionState, handleInterruption]

/-- C5 (amended): on a decode failure the segment is dropped (nothing is
scheduled, the active set is unchanged), the session continues (no handle
is released, no error is shown) and `nextStartTime` is not advanced by any
segment duration — it only gets clamped to
`max (previous value) (output clock now)` by the pre-decode update of
line 165. -/
theorem decode_failure_drops_segment (decode : List Nat → Option ℚ)
    (now : ℚ) (s : AgentState) (m : ServerMessage) (c : List Nat)
    (hm : m.audioData = some c) (hctx : s.audioContext = true)
    (hd : decode c = none) :
    handleMessage decode now s m =
      ({ s with nextStartTime := max s.nextStartTime now },
       ⟨none, true, []⟩) := by
  rcases m with ⟨ad, int⟩
  cases hm
  simp [handleMessage, hctx, hd]

/-- C5 witness for the amended statement. -/
theorem decode_failure_drops_segment_witness :
    handleMessage (fun _ => none) 5 startSessionState ⟨some [0], false⟩ =
      ({ startSessionState with
          nextStartTime := max startSessionState.nextStartTime 5 },
       ⟨none, true, []⟩) :=
  decode_failure_drops_segment (fun _ => none) 5 startSessionState
    ⟨some [0], false⟩ [0] rfl rfl rfl

/-- C2: for every scheduler state and every interruption event whose
handler runs to completion (i.e. the message's audio part, if any, does
not abort the handler with a decode exception), immediately afterwards
the active-segment set is empty, every segment that was in the active set
is among the stopped ones, and `nextStartTime = 0`; moreover a segment
enqueued by a following message is scheduled at
`max 0 now = now`, the output clock's current time, not at a stale
offset. -/
theorem interrupt_clears_set_resets_clock (decode : List Nat → Option ℚ)
    (now : ℚ) (s : AgentState) (m : ServerMessage)
    (hint : m.interrupted = true)
    (hok : ∀ c, m.audioData = some c → s.audioContext = true →
      (decode c).isSome) :
    (handleMessage decode now s m).1.activeSources = [] ∧
    (handleMessage decode now s m).1.nextStartTime = 0 ∧
    (∀ i ∈ s.activeSources, i ∈ (handleMessage decode now s m).2.stopped) ∧
    (∀ (now' : ℚ) (c : List Nat) (d : ℚ), 0 ≤ now' → decode c = some d →
      s.audioContext = true →
      (handleMessage decode now' (handleMessage decode now s m).1
          ⟨some c, false⟩).2.scheduled =
        some ((handleMessage decode now s m).1.nextId, now', d)) := by
  rcases m with ⟨ad, int⟩
  cases hint
  have key : (handleMessage decode now s ⟨ad, true⟩).1.activeSources = [] ∧
      (handleMessage decode now s ⟨ad, true⟩).1.nextStartTime = 0 ∧
      ∀ i ∈ s.activeSources,
        i ∈ (handleMessage decode now s ⟨ad, true⟩).2.stopped := by
    rcases ad with _ | c
    · simp [handleMessage, handleInterruption]
    · cases hctx : s.audioContext
      · simp [handleMessage, handleInterruption, hctx]
      · rcases hdec : decode c with _ | d
        · exact absurd (hok c rfl hctx) (by simp [hdec])
        · simp only [handleMessage, handleInterruption, hctx, hdec]
          simp
          intro i hi
          exact Or.inl hi
  refine ⟨key.1, key.2.1, key.2.2, ?_⟩
  intro now' c d hnow hdc hctx
  have hctx' :
      (handleMessage decode now s ⟨ad, true⟩).1.audioContext = true := by
    rw [(handleMessage_frame decode now s ⟨ad, true⟩).1, hctx]
  rw [enqueue_success_spec decode now' _ c d hctx' hdc]
  simp [key.2.1, max_eq_right hnow]

/-- C2 witness: a state with two active segments, an interruption-only
message at clock time 3, then an enqueue at clock time 4. -/
theorem interrupt_clears_set_resets_clock_witness :
    (handleMessage (fun _ => some 2) 3
        { startSessionState with
          activeSources := [0, 1]
          nextId := 2
          nextStartTime := 9 } ⟨none, true⟩).1.activeSources = [] ∧
    (handleMessage (fun _ => some 2) 3
        { startSessionState with
          activeSources := [0, 1]
          nextId := 2
          nextStartTime := 9 } ⟨none, true⟩).1.nextStartTime = 0 ∧
    (∀ i ∈ ({ startSessionState with
          activeSources := [0, 1]
          nextId := 2
          nextStartTime := 9 } : AgentState).activeSources,
      i ∈ (handleMessage (fun _ => some 2) 3
        { startSessionState with
          activeSources := [0, 1]
          nextId := 2
          nextStartTime := 9 } ⟨none, true⟩).2.stopped) ∧
    (∀ (now' : ℚ) (c : List Nat) (d : ℚ), 0 ≤ now' →
      (fun _ => some 2 : List Nat → Option ℚ) c = some d →
      ({ startSessionState with
          activeSources := [0, 1]
          nextId := 2
          nextStartTime := 9 } : AgentState).audioContext = true →
      (handleMessage (fun _ => some 2) now'
          (handleMessage (fun _ => some 2) 3
            { startSessionState with
              activeSources := [0, 1]
              nextId := 2
              nextStartTime := 9 } ⟨none, true⟩).1
          ⟨some c, false⟩).2.scheduled =
        some ((handleMessage (fun _ => some 2) 3
            { startSessionState with
              activeSources := [0, 1]
              nextId := 2
              nextStartTime := 9 } ⟨none, true⟩).1.nextId, now', d)) :=
  interrupt_clears_set_resets_clock (fun _ => some 2) 3
    { startSessionState with
      activeSources := [0, 1]
      nextId := 2
      nextStartTime := 9 } ⟨none, true⟩ rfl (by simp)

/-- Dispatching any event other than `onopen` never installs the capture
tap, and a system with no tap installed emits no outbound payload. -/
theorem step_no_open_no_send (decode : List Nat → Option ℚ)
    (s : AgentState) (e : Event) (he : e ≠ Event.evOpen)
    (hp : s.processor = false) :
    (step decode s e).1.processor = false ∧
    ∀ p, Output.sent p ∉ (step decode s e).2 := by
  cases e with
  | evOpen => exact absurd rfl he
  | evMessage m now =>
    refine ⟨((handleMessage_frame decode now s m).2.2.2.1).trans hp, ?_⟩
    intro p
    simp only [step]
    rcases (handleMessage decode now s m).2.scheduled with _ | ⟨i, st, d⟩ <;>
      simp
  | evTap block rms => simp [step, hp]
  | evClose => simp [step, stopAudio]
  | evError => simp [step, stopAudio]
  | evStop => simp [step, stopAudio]

/-- C4: a capture-tap payload produced while the transport is not
established is dropped, not buffered.  Conjuncts: (1) when
`sessionPromiseRef.current` is null, `onaudioprocess` sends nothing and
changes nothing but the volume — there is no queue in which the payload
could wait; (2) before any `open` event the tap is never installed, so no
trace without an `open` ever emits an outbound payload from the
post-`startSession` state; (3) a tap that fires with the tap installed
but no transport contributes nothing to the trace of any continuation:
the whole future trace equals that of the state with only the volume
updated, so the dropped payload is never transmitted later. -/
theorem tap_without_channel_drops_payload :
    (∀ (s : AgentState) (block : List ℚ) (rms : ℚ),
      s.sessionPromise = false →
      onaudioprocess s block rms =
        ({ s with volume := updateVolume rms s.volume }, none)) ∧
    (∀ (decode : List Nat → Option ℚ) (s : AgentState) (es : List Event),
      s.processor = false → (∀ e ∈ es, e ≠ Event.evOpen) →
      ∀ p, Output.sent p ∉ runTrace decode s es) ∧
    (∀ (decode : List Nat → Option ℚ) (s : AgentState) (block : List ℚ)
        (rms : ℚ) (es : List Event),
      s.processor = true → s.sessionPromise = false →
      runTrace decode s (Event.evTap block rms :: es) =
        runTrace decode { s with volume := updateVolume rms s.volume } es) := by
  refine ⟨?_, ?_, ?_⟩
  · intro s block rms hsp
    simp [onaudioprocess, hsp]
  · intro decode s es
    induction es generalizing s with
    | nil => simp [runTrace]
    | cons e es ih =>
      intro hp hne p
      have h := step_no_open_no_send decode s e (hne e (by simp)) hp
      simp only [runTrace, List.mem_append]
      rintro (hmem | hmem)
      · exact h.2 p hmem
      · exact ih _ h.1 (fun e' he' => hne e' (by simp [he'])) p hmem
  · intro decode s block rms es hp hsp
    simp [runTrace, step, hp, onaudioprocess, hsp]

/-- C4 witness: concrete instances of all three conjuncts. -/
theorem tap_without_channel_drops_payload_witness :
    (onaudioprocess { startSessionState with sessionPromise := false }
        [0, 0] 0 =
      ({ { startSessionState with sessionPromise := false } with
          volume := updateVolume 0
            ({ startSessionState with sessionPromise := false } :
              AgentState).volume }, none)) ∧
    (∀ p, Output.sent p ∉
      runTrace (fun _ => some 1) startSessionState
        [Event.evTap [0, 0] 0, Event.evMessage ⟨some [0], false⟩ 0]) ∧
    (runTrace (fun _ => some 1)
        { startSessionState with
          processor := true
          sessionPromise := false }
        [Event.evTap [0, 0] 0] =
      runTrace (fun _ => some 1)
        { { startSessionState with
            processor := true
            sessionPromise := false } with
          volume := updateVolume 0
            ({ startSessionState with
                processor := true
                sessionPromise := false } : AgentState).volume } []) :=
  ⟨tap_without_channel_drops_payload.1
      { startSessionState with sessionPromise := false } [0, 0] 0 rfl,
   tap_without_channel_drops_payload.2.1 (fun _ => some 1) startSessionState
      [Event.evTap [0, 0] 0, Event.evMessage ⟨some [0], false⟩ 0] rfl
      (by intro e he
          simp only [List.mem_cons, List.not_mem_nil, or_false] at he
          rcases he with h | h <;> simp [h]),
   tap_without_channel_drops_payload.2.2 (fun _ => some 1)
      { startSessionState with
        processor := true
        sessionPromise := false } [0, 0] 0 [] rfl rfl⟩

/-- A capture tap only rewrites the volume field of the state. -/
theorem onaudioprocess_fst (s : AgentState) (block : List ℚ) (rms : ℚ) :
    (onaudioprocess s block rms).1 =
      { s with volume := updateVolume rms s.volume } := by
  unfold onaudioprocess
  split <;> rfl

/-- The mean square of a block of samples from [-1, 1] is at most 1. -/
theorem sumSq_le_length (b : List ℚ) (hb : ∀ x ∈ b, -1 ≤ x ∧ x ≤ 1) :
    (b.map fun x => x * x).sum ≤ (b.length : ℚ) := by
  induction b with
  | nil => simp
  | cons x xs ih =>
    have hx := hb x (by simp)
    have hxs := ih fun y hy => hb y (by simp [hy])
    have hx2 : x * x ≤ 1 := by nlinarith [hx.1, hx.2]
    simp only [List.map_cons, List.sum_cons, List.length_cons]
    push_cast
    linarith

/-- The mean square of any block is nonnegative. -/
theorem rmsSq_nonneg (b : List ℚ) : 0 ≤ rmsSq b := by
  unfold rmsSq
  apply div_nonneg
  · exact List.sum_nonneg fun x hx => by
      obtain ⟨y, _, rfl⟩ := List.mem_map.1 hx
      exact mul_self_nonneg y
  · exact_mod_cast Nat.zero_le _

/-- The mean square of a block of samples from [-1, 1] is at most 1
(including the degenerate empty block, whose mean square is 0 by the
convention `0 / 0 = 0`). -/
theorem rmsSq_le_one (b : List ℚ) (hb : ∀ x ∈ b, -1 ≤ x ∧ x ≤ 1) :
    rmsSq b ≤ 1 := by
  rcases b with _ | ⟨x, xs⟩
  · simp [rmsSq]
  · have hlen : (0 : ℚ) < ((x :: xs).length : ℚ) := by
      exact_mod_cast Nat.succ_pos xs.length
    unfold rmsSq
    rw [div_le_one hlen]
    exact sumSq_le_length _ hb

/-- The RMS of a block of samples from [-1, 1] is at most 1. -/
theorem rms_le_one (rms : ℚ) (b : List ℚ) (h0 : 0 ≤ rms)
    (h2 : rms ^ 2 = rmsSq b) (hb : ∀ x ∈ b, -1 ≤ x ∧ x ≤ 1) :
    rms ≤ 1 := by
  nlinarith [rmsSq_le_one b hb]

/-- The mean square of the all-zero block is 0. -/
theorem rmsSq_replicate_zero (n : Nat) :
    rmsSq (List.replicate n (0 : ℚ)) = 0 := by
  rcases n with _ | n <;> simp [rmsSq]

/-- C6: on every capture tap the Energy Sample becomes exactly
`max rms (previous * 0.9)` — where `rms` is characterised against the
block by `0 ≤ rms` and `rms ^ 2 = rmsSq block` — and on a run of silent
(all-zero, hence RMS-zero) blocks it never increases, decays by exactly
the factor 9/10 per block, and gets below any `ε > 0` after some finite
number of blocks. -/
theorem energy_attack_decay :
    (∀ (s : AgentState) (block : List ℚ) (rms : ℚ), 0 ≤ rms →
      rms ^ 2 = rmsSq block →
      (onaudioprocess s block rms).1.volume = max rms (s.volume * (9 / 10))) ∧
    (∀ rms : ℚ, 0 ≤ rms → rms ^ 2 = rmsSq (List.replicate 4096 (0 : ℚ)) →
      rms = 0) ∧
    (∀ s : AgentState, 0 ≤ s.volume →
      (silentTap s).volume = s.volume * (9 / 10) ∧
      (silentTap s).volume ≤ s.volume) ∧
    (∀ (s : AgentState) (n : ℕ), 0 ≤ s.volume →
      (silentTap^[n] s).volume = s.volume * (9 / 10) ^ n) ∧
    (∀ v ε : ℚ, 0 ≤ v → 0 < ε → ∃ N : ℕ, ∀ s : AgentState,
      s.volume = v → (silentTap^[N] s).volume < ε) := by
  have hfst : ∀ (s : AgentState) (block : List ℚ) (rms : ℚ),
      (onaudioprocess s block rms).1.volume = max rms (s.volume * (9 / 10)) := by
    intro s block rms
    rw [onaudioprocess_fst]
    rfl
  have hsilent : ∀ s : AgentState, 0 ≤ s.volume →
      (silentTap s).volume = s.volume * (9 / 10) := by
    intro s hs
    rw [silentTap, hfst]
    exact max_eq_right (by positivity)
  have hiter : ∀ (n : ℕ) (s : AgentState), 0 ≤ s.volume →
      (silentTap^[n] s).volume = s.volume * (9 / 10) ^ n := by
    intro n
    induction n with
    | zero => intro s _; simp
    | succ n ih =>
      intro s hs
      rw [Function.iterate_succ_apply, ih _ (by rw [hsilent s hs]; positivity),
        hsilent s hs, pow_succ]
      ring
  refine ⟨fun s block rms _ _ => hfst s block rms, ?_, ?_, fun s n => hiter n s, ?_⟩
  · intro rms h0 h2
    rw [rmsSq_replicate_zero] at h2
    exact pow_eq_zero_iff (n := 2) (by norm_num) |>.1 h2
  · intro s hs
    refine ⟨hsilent s hs, ?_⟩
    rw [hsilent s hs]
    nlinarith
  · intro v ε hv hε
    rcases eq_or_lt_of_le hv with hv0 | hv0
    · exact ⟨0, fun s hsv => by
        simp only [Function.iterate_zero, id_eq, hsv, ← hv0]
        exact hε⟩
    · obtain ⟨N, hN⟩ := exists_pow_lt_of_lt_one (x := ε / v)
        (y := (9 / 10 : ℚ)) (by positivity) (by norm_num)
      refine ⟨N, fun s hsv => ?_⟩
      rw [hiter N s (by rw [hsv]; exact hv), hsv]
      calc v * (9 / 10) ^ N < v * (ε / v) :=
            mul_lt_mul_of_pos_left hN hv0
        _ = ε := by field_simp

/-- C6 witness: with the volume at 1, three silent taps leave exactly
(9/10)³, and some number of silent taps pushes it below 1/1000. -/
theorem energy_attack_decay_witness :
    ((onaudioprocess { startSessionState with volume := 1 }
        (List.replicate 4096 (0 : ℚ)) 0).1.volume =
      max 0 ((1 : ℚ) * (9 / 10))) ∧
    ((silentTap^[3] { startSessionState with volume := 1 }).volume =
      1 * (9 / 10) ^ 3) ∧
    ∃ N : ℕ, ∀ s : AgentState, s.volume = 1 →
      (silentTap^[N] s).volume < 1 / 1000 :=
  ⟨energy_attack_decay.1 { startSessionState with volume := 1 }
      (List.replicate 4096 (0 : ℚ)) 0 le_rfl
      (by rw [rmsSq_replicate_zero]; norm_num),
   energy_attack_decay.2.2.2.1 { startSessionState with volume := 1 } 3
      (by norm_num),
   energy_attack_decay.2.2.2.2 1 (1 / 1000) (by norm_num) (by norm_num)⟩

/-- C7: the Energy Sample is a scalar in [0, 1]: from any volume in
[0, 1] (in particular the initial 0), any sequence of well-formed capture
taps (samples within [-1, 1], RMS the true root of the block's mean
square) keeps the volume in [0, 1]; and teardown resets it to 0. -/
theorem volume_stays_in_unit_interval (taps : List (List ℚ × ℚ))
    (h : ∀ t ∈ taps, ValidTap t) (s : AgentState)
    (h0 : 0 ≤ s.volume) (h1 : s.volume ≤ 1) :
    (0 ≤ (processTaps s taps).volume ∧ (processTaps s taps).volume ≤ 1) ∧
    ∀ s' : AgentState, (stopAudio s').1.volume = 0 := by
  refine ⟨?_, fun s' => rfl⟩
  induction taps generalizing s with
  | nil => exact ⟨h0, h1⟩
  | cons t ts ih =>
    obtain ⟨hb, hrms0, hrms2⟩ := h t (by simp)
    have hle1 : t.2 ≤ 1 := rms_le_one t.2 t.1 hrms0 hrms2 hb
    simp only [processTaps]
    apply ih (fun u hu => h u (by simp [hu]))
    · rw [onaudioprocess_fst]
      exact le_max_of_le_left hrms0
    · rw [onaudioprocess_fst]
      exact max_le hle1 (by nlinarith)

/-- C7 witness: two taps — a full-scale block (RMS 1) and a silent one —
starting from volume 0. -/
theorem volume_stays_in_unit_interval_witness :
    (0 ≤ (processTaps startSessionState
        [([1, 1], 1), ([0, 0], 0)]).volume ∧
      (processTaps startSessionState
        [([1, 1], 1), ([0, 0], 0)]).volume ≤ 1) ∧
    ∀ s' : AgentState, (stopAudio s').1.volume = 0 :=
  volume_stays_in_unit_interval [([1, 1], 1), ([0, 0], 0)]
    (by
      intro t ht
      simp only [List.mem_cons, List.not_mem_nil, or_false] at ht
      rcases ht with rfl | rfl <;>
        refine ⟨?_, by norm_num, by norm_num [rmsSq]⟩ <;>
        · intro x hx
          simp only [List.mem_cons, List.not_mem_nil, or_false] at hx
          rcases hx with rfl | rfl <;> norm_num)
    startSessionState le_rfl (by norm_num [startSessionState])

/-- `schedTimes` distributes over trace concatenation. -/
theorem schedTimes_append (l1 l2 : List Output) :
    schedTimes (l1 ++ l2) = schedTimes l1 ++ schedTimes l2 := by
  simp [schedTimes]

/-- A batch of stop notifications contributes no scheduled segment. -/
theorem schedTimes_map_stopped (l : List Nat) :
    schedTimes (l.map Output.stoppedSeg) = [] := by
  induction l <;> simp_all [schedTimes]

/-- Effect of one interruption-free event on the scheduler:
`nextStartTime` never decreases, and the event either schedules nothing
or schedules exactly one segment whose start is at least the previous
`nextStartTime`, with `nextStartTime` advanced to start + duration. -/
theorem step_nonInterrupt_spec (decode : List Nat → Option ℚ)
    (hd : ∀ c d, decode c = some d → 0 ≤ d)
    (s : AgentState) (e : Event) (he : NonInterrupt e) :
    s.nextStartTime ≤ (step decode s e).1.nextStartTime ∧
    (schedTimes (step decode s e).2 = [] ∨
      ∃ st d, schedTimes (step decode s e).2 = [(st, d)] ∧ 0 ≤ d ∧
        s.nextStartTime ≤ st ∧
        (step decode s e).1.nextStartTime = st + d) := by
  cases e with
  | evOpen =>
    refine ⟨?_, Or.inl ?_⟩ <;> · simp only [step]; split <;> simp [schedTimes]
  | evTap block rms =>
    constructor
    · simp only [step]
      split
      · rcases hp : (onaudioprocess s block rms).2 with _ | p <;>
          simp [hp, onaudioprocess_fst]
      · exact le_rfl
    · left
      simp only [step]
      split
      · rcases hp : (onaudioprocess s block rms).2 with _ | p <;>
          simp [hp, schedTimes]
      · simp [schedTimes]
  | evClose =>
    exact ⟨le_of_eq rfl, Or.inl (by simp [step, schedTimes_map_stopped])⟩
  | evError =>
    exact ⟨le_of_eq rfl, Or.inl (by simp [step, schedTimes_map_stopped])⟩
  | evStop =>
    exact ⟨le_of_eq rfl, Or.inl (by simp [step, schedTimes_map_stopped])⟩
  | evMessage m now =>
    rcases m with ⟨ad, int⟩
    have hint : int = false := he
    cases hint
    rcases ad with _ | c
    · refine ⟨le_of_eq ?_, Or.inl ?_⟩ <;>
        simp [step, handleMessage, handleInterruption, schedTimes]
    · cases hctx : s.audioContext
      · refine ⟨le_of_eq ?_, Or.inl ?_⟩ <;>
          simp [step, handleMessage, handleInterruption, hctx, schedTimes]
      · rcases hdec : decode c with _ | d
        · refine ⟨?_, Or.inl ?_⟩ <;>
            simp [step, handleMessage, handleInterruption, hctx, hdec,
              schedTimes, le_max_left]
        · have hd0 := hd c d hdec
          have heq := enqueue_success_spec decode now s c d hctx hdec
          have hnext : (step decode s
              (Event.evMessage ⟨some c, false⟩ now)).1.nextStartTime =
              max s.nextStartTime now + d := by
            simp [step, heq]
          refine ⟨?_, Or.inr ⟨max s.nextStartTime now, d, ?_, hd0,
            le_max_left _ _, hnext⟩⟩
          · rw [hnext]
            have := le_max_left s.nextStartTime now
            linarith
          · simp [step, heq, schedTimes]

/-- Along any interruption-free trace, the scheduled (start, duration)
pairs form a chain: each start is at least the previous start plus its
duration, and the first start is at least the initial `nextStartTime`. -/
theorem runTrace_sched_chain (decode : List Nat → Option ℚ)
    (hd : ∀ c d, decode c = some d → 0 ≤ d) :
    ∀ (es : List Event) (s : AgentState), (∀ e ∈ es, NonInterrupt e) →
    List.Chain' (fun a b : ℚ × ℚ => a.1 ≤ b.1 ∧ a.1 + a.2 ≤ b.1)
      (schedTimes (runTrace decode s es)) ∧
    (∀ p, (schedTimes (runTrace decode s es)).head? = some p →
      s.nextStartTime ≤ p.1) := by
  intro es
  induction es with
  | nil => simp [runTrace, schedTimes]
  | cons e es ih =>
    intro s hni
    have hstep := step_nonInterrupt_spec decode hd s e (hni e (by simp))
    have ihs := ih (step decode s e).1 fun e' he' => hni e' (by simp [he'])
    rw [show runTrace decode s (e :: es) =
        (step decode s e).2 ++ runTrace decode (step decode s e).1 es
      from rfl, schedTimes_append]
    rcases hstep.2 with hout | ⟨st, d, hout, hd0, hst, hnext⟩
    · rw [hout, List.nil_append]
      exact ⟨ihs.1, fun p hp => le_trans hstep.1 (ihs.2 p hp)⟩
    · rw [hout, List.singleton_append]
      refine ⟨List.chain'_cons'.2 ⟨?_, ihs.1⟩, ?_⟩
      · intro y hy
        have hy1 := ihs.2 y (Option.mem_def.1 hy)
        rw [hnext] at hy1
        exact ⟨by linarith, by linarith⟩
      · intro p hp
        simp only [List.head?_cons, Option.some.injEq] at hp
        rw [← hp]
        exact hst

/-- C1: a successful enqueue schedules the segment at
`max nextStartTime clockNow` and then advances `nextStartTime` by exactly
the segment's duration; consequently along any interruption-free event
sequence the scheduled start times are monotonically non-decreasing and
each start is at least the previous start plus the previous duration (no
overlap, no inserted gap). -/
theorem enqueue_start_max_and_gapless :
    (∀ (decode : List Nat → Option ℚ) (now : ℚ) (s : AgentState)
        (c : List Nat) (d : ℚ),
      s.audioContext = true → decode c = some d →
      (handleMessage decode now s ⟨some c, false⟩).2.scheduled =
        some (s.nextId, max s.nextStartTime now, d) ∧
      (handleMessage decode now s ⟨some c, false⟩).1.nextStartTime =
        max s.nextStartTime now + d) ∧
    (∀ (decode : List Nat → Option ℚ) (es : List Event) (s : AgentState),
      (∀ c d, decode c = some d → 0 ≤ d) →
      (∀ e ∈ es, NonInterrupt e) →
      List.Chain' (fun a b : ℚ × ℚ => a.1 ≤ b.1 ∧ a.1 + a.2 ≤ b.1)
        (schedTimes (runTrace decode s es))) := by
  constructor
  · intro decode now s c d hctx hdec
    rw [enqueue_success_spec decode now s c d hctx hdec]
    exact ⟨rfl, rfl⟩
  · intro decode es s hd hni
    exact (runTrace_sched_chain decode hd es s hni).1

/-- C1 witness: a concrete enqueue at clock time 5 over `nextStartTime`
0, and a two-chunk interruption-free trace. -/
theorem enqueue_start_max_and_gapless_witness :
    ((handleMessage (fun _ => some 2) 5 startSessionState
        ⟨some [0], false⟩).2.scheduled =
      some (startSessionState.nextId,
        max startSessionState.nextStartTime 5, 2) ∧
      (handleMessage (fun _ => some 2) 5 startSessionState
        ⟨some [0], false⟩).1.nextStartTime =
        max startSessionState.nextStartTime 5 + 2) ∧
    List.Chain' (fun a b : ℚ × ℚ => a.1 ≤ b.1 ∧ a.1 + a.2 ≤ b.1)
      (schedTimes (runTrace (fun _ => some 1) startSessionState
        [Event.evMessage ⟨some [9], false⟩ 0,
         Event.evMessage ⟨some [9], false⟩ 0])) :=
  ⟨enqueue_start_max_and_gapless.1 (fun _ => some 2) 5 startSessionState
      [0] 2 rfl rfl,
   enqueue_start_max_and_gapless.2 (fun _ => some 1)
      [Event.evMessage ⟨some [9], false⟩ 0,
       Event.evMessage ⟨some [9], false⟩ 0] startSessionState
      (by
        intro c d h
        simp only [Option.some.injEq] at h
        rw [← h]
        norm_num)
      (by
        intro e he
        simp only [List.mem_cons, List.not_mem_nil, or_false] at he
        rcases he with rfl | rfl <;> rfl)⟩

/-- The ids scheduled before a point of the trace, accumulated over a
prefix: `seenAfter seen tr` extends `seen` with every id scheduled in
`tr`. -/
def seenAfter (seen : List Nat) : List Output → List Nat
  | [] => seen
  | .scheduledSeg i _ _ :: tr => seenAfter (i :: seen) tr
  | _ :: tr => seenAfter seen tr

/-- `stopsAfterSchedules` splits over concatenation, threading the
accumulated scheduled ids. -/
theorem stopsAfterSchedules_append (l1 l2 : List Output) (seen : List Nat) :
    stopsAfterSchedules seen (l1 ++ l2) =
      (stopsAfterSchedules seen l1 &&
        stopsAfterSchedules (seenAfter seen l1) l2) := by
  induction l1 generalizing seen with
  | nil => simp [stopsAfterSchedules, seenAfter]
  | cons o l1 ih =>
    rcases o with p | ⟨i, st, d⟩ | i <;>
      simp [stopsAfterSchedules, seenAfter, ih, Bool.and_assoc]

/-- Stop notifications for ids that were all scheduled earlier pass the
order check and contribute no schedule. -/
theorem stopsAfterSchedules_map_stopped (l seen : List Nat)
    (h : ∀ i ∈ l, i ∈ seen) :
    stopsAfterSchedules seen (l.map Output.stoppedSeg) = true ∧
    seenAfter seen (l.map Output.stoppedSeg) = seen := by
  induction l with
  | nil => simp [stopsAfterSchedules, seenAfter]
  | cons i l ih =>
    obtain ⟨h1, h2⟩ := ih fun j hj => h j (by simp [hj])
    refine ⟨?_, h2⟩
    simp only [List.map_cons, stopsAfterSchedules, h1, Bool.and_true]
    exact List.elem_iff.2 (h i (by simp))

/-- schedIds distributes over concatenation. -/
theorem schedIds_append (l1 l2 : List Output) :
    schedIds (l1 ++ l2) = schedIds l1 ++ schedIds l2 := by
  simp [schedIds]

/-- A batch of stop notifications schedules nothing. -/
theorem schedIds_map_stopped (l : List Nat) :
    schedIds (l.map Output.stoppedSeg) = [] := by
  induction l <;> simp_all [schedIds]

/-- When the audio branch is skipped (no audio in the message, or the
output context is gone), `onmessage` is just its interruption branch. -/
theorem handleMessage_no_audio (decode : List Nat → Option ℚ) (now : ℚ)
    (s : AgentState) (m : ServerMessage)
    (h : m.audioData = none ∨ s.audioContext = false) :
    handleMessage decode now s m = handleInterruption s m none := by
  rcases m with ⟨ad, int⟩
  rcases h with h | h
  · cases h; rfl
  · rcases ad with _ | c
    · rfl
    · simp [handleMessage, h]

/-- Characterization of an enqueue immediately followed by an
interruption carried in the same message: the fresh segment is scheduled,
then it and every previously active segment are stopped, the set is
cleared and `nextStartTime` reset. -/
theorem enqueue_then_interrupt_spec (decode : List Nat → Option ℚ)
    (now : ℚ) (s : AgentState) (c : List Nat) (d : ℚ)
    (hctx : s.audioContext = true) (hd : decode c = some d) :
    handleMessage decode now s ⟨some c, true⟩ =
      ({ s with
          nextStartTime := 0
          activeSources := []
          nextId := s.nextId + 1 },
       ⟨some (s.nextId, max s.nextStartTime now, d), false,
        s.activeSources ++ [s.nextId]⟩) := by
  simp [handleMessage, hctx, hd, handleInterruption]

/-- Effect of one event on the id counter: it never decreases, and the
event schedules either nothing or exactly the one fresh id, in which case
the counter advances past it. -/
theorem step_id_spec (decode : List Nat → Option ℚ) (s : AgentState)
    (e : Event) :
    s.nextId ≤ (step decode s e).1.nextId ∧
    (schedIds (step decode s e).2 = [] ∨
      (schedIds (step decode s e).2 = [s.nextId] ∧
        (step decode s e).1.nextId = s.nextId + 1)) := by
  cases e with
  | evOpen =>
    constructor
    · simp only [step]; split <;> simp
    · left; simp only [step]; split <;> simp [schedIds]
  | evTap block rms =>
    constructor
    · simp only [step]
      split
      · rcases hp : (onaudioprocess s block rms).2 with _ | p <;>
          simp [hp, onaudioprocess_fst]
      · exact le_rfl
    · left
      simp only [step]
      split
      · rcases hp : (onaudioprocess s block rms).2 with _ | p <;>
          simp [hp, schedIds]
      · simp [schedIds]
  | evClose => exact ⟨le_rfl, Or.inl (by simp [step, schedIds_map_stopped])⟩
  | evError => exact ⟨le_rfl, Or.inl (by simp [step, schedIds_map_stopped])⟩
  | evStop => exact ⟨le_rfl, Or.inl (by simp [step, schedIds_map_stopped])⟩
  | evMessage m now =>
    rcases m with ⟨ad, int⟩
    by_cases hskip : ad = none ∨ s.audioContext = false
    · rw [show (step decode s (Event.evMessage ⟨ad, int⟩ now)) =
          ((handleMessage decode now s ⟨ad, int⟩).1,
            (match (handleMessage decode now s ⟨ad, int⟩).2.scheduled with
             | some (i, st, d) => [Output.scheduledSeg i st d]
             | none => []) ++
            (handleMessage decode now s ⟨ad, int⟩).2.stopped.map
              Output.stoppedSeg) from rfl,
        handleMessage_no_audio decode now s ⟨ad, int⟩ hskip]
      unfold handleInterruption
      cases int <;> simp [schedIds_map_stopped, schedIds]
    · push_neg at hskip
      obtain ⟨hne, hctx⟩ := hskip
      rcases ad with _ | c
      · exact absurd rfl hne
      · simp only [ne_eq, Bool.not_eq_false] at hctx
        rcases hdec : decode c with _ | d
        · constructor
          · simp [step, handleMessage, hctx, hdec]
          · left; simp [step, handleMessage, hctx, hdec, schedIds]
        · cases int
          · have heq := enqueue_success_spec decode now s c d hctx hdec
            exact ⟨by simp [step, heq],
              Or.inr ⟨by simp [step, heq, schedIds], by simp [step, heq]⟩⟩
          · have heq := enqueue_then_interrupt_spec decode now s c d hctx hdec
            refine ⟨by simp [step, heq],
              Or.inr ⟨?_, by simp [step, heq]⟩⟩
            simp [step, heq, schedIds_append, schedIds_map_stopped, schedIds]

/-- Along any trace the scheduled ids are strictly increasing and bounded
below by the starting id counter: segments are scheduled in the arrival
order of their messages. -/
theorem runTrace_ids_increasing (decode : List Nat → Option ℚ) :
    ∀ (es : List Event) (s : AgentState),
    List.Chain' (· < ·) (schedIds (runTrace decode s es)) ∧
    ∀ i ∈ schedIds (runTrace decode s es), s.nextId ≤ i := by
  intro es
  induction es with
  | nil => simp [runTrace, schedIds]
  | cons e es ih =>
    intro s
    have hstep := step_id_spec decode s e
    have ihs := ih (step decode s e).1
    rw [show runTrace decode s (e :: es) =
        (step decode s e).2 ++ runTrace decode (step decode s e).1 es
      from rfl, schedIds_append]
    rcases hstep.2 with hout | ⟨hout, hid⟩
    · rw [hout, List.nil_append]
      exact ⟨ihs.1, fun i hi => le_trans hstep.1 (ihs.2 i hi)⟩
    · rw [hout, List.singleton_append]
      refine ⟨List.chain'_cons'.2 ⟨?_, ihs.1⟩, ?_⟩
      · intro y hy
        have hy1 := ihs.2 y
          (List.mem_of_mem_head? (Option.mem_def.1 hy))
        rw [hid] at hy1
        omega
      · intro i hi
        rcases List.mem_cons.1 hi with rfl | hi
        · exact le_rfl
        · have := ihs.2 i hi
          rw [hid] at this
          omega

/-- Effect of one event on the active set relative to the ids scheduled
so far: the trace fragment it emits stops only already-scheduled
segments, and afterwards every active segment is among the scheduled
ids. -/
theorem step_stops_spec (decode : List Nat → Option ℚ) (s : AgentState)
    (e : Event) (seen : List Nat)
    (hsub : ∀ i ∈ s.activeSources, i ∈ seen) :
    stopsAfterSchedules seen (step decode s e).2 = true ∧
    ∀ i ∈ (step decode s e).1.activeSources,
      i ∈ seenAfter seen (step decode s e).2 := by
  cases e with
  | evOpen =>
    constructor
    · simp only [step]; split <;> simp [stopsAfterSchedules]
    · simp only [step]; split <;> simpa [seenAfter] using hsub
  | evTap block rms =>
    constructor
    · simp only [step]
      split
      · rcases hp : (onaudioprocess s block rms).2 with _ | p <;>
          simp [hp, stopsAfterSchedules]
      · simp [stopsAfterSchedules]
    · simp only [step]
      split
      · rcases hp : (onaudioprocess s block rms).2 with _ | p <;>
          simpa [hp, seenAfter, onaudioprocess_fst] using hsub
      · simpa [seenAfter] using hsub
  | evClose =>
    have h := stopsAfterSchedules_map_stopped s.activeSources seen hsub
    exact ⟨by simpa [step] using h.1, by simp [step, stopAudio]⟩
  | evError =>
    have h := stopsAfterSchedules_map_stopped s.activeSources seen hsub
    exact ⟨by simpa [step] using h.1, by simp [step, stopAudio]⟩
  | evStop =>
    have h := stopsAfterSchedules_map_stopped s.activeSources seen hsub
    exact ⟨by simpa [step] using h.1, by simp [step, stopAudio]⟩
  | evMessage m now =>
    rcases m with ⟨ad, int⟩
    by_cases hskip : ad = none ∨ s.audioContext = false
    · rw [show (step decode s (Event.evMessage ⟨ad, int⟩ now)) =
          ((handleMessage decode now s ⟨ad, int⟩).1,
            (match (handleMessage decode now s ⟨ad, int⟩).2.scheduled with
             | some (i, st, d) => [Output.scheduledSeg i st d]
             | none => []) ++
            (handleMessage decode now s ⟨ad, int⟩).2.stopped.map
              Output.stoppedSeg) from rfl,
        handleMessage_no_audio decode now s ⟨ad, int⟩ hskip]
      unfold handleInterruption
      have h := stopsAfterSchedules_map_stopped s.activeSources seen hsub
      cases int
      · exact ⟨by simp [stopsAfterSchedules],
          by simpa [seenAfter] using hsub⟩
      · exact ⟨by simpa using h.1, by simp [h.2]⟩
    · push_neg at hskip
      obtain ⟨hne, hctx⟩ := hskip
      rcases ad with _ | c
      · exact absurd rfl hne
      · simp only [ne_eq, Bool.not_eq_false] at hctx
        rcases hdec : decode c with _ | d
        · constructor
          · simp [step, handleMessage, hctx, hdec, stopsAfterSchedules]
          · simp only [step]
            simp [handleMessage, hctx, hdec, seenAfter]
            exact hsub
        · cases int
          · have heq := enqueue_success_spec decode now s c d hctx hdec
            constructor
            · simp [step, heq, stopsAfterSchedules]
            · simp only [step, heq]
              simp [seenAfter]
              intro i hi
              rcases hi with hi | rfl
              · exact Or.inr (hsub i hi)
              · exact Or.inl rfl
          · have heq := enqueue_then_interrupt_spec decode now s c d hctx hdec
            constructor
            · have hsub' : ∀ i ∈ s.activeSources ++ [s.nextId],
                  i ∈ s.nextId :: seen := by
                intro i hi
                rcases List.mem_append.1 hi with hi | hi
                · exact List.mem_cons_of_mem _ (hsub i hi)
                · simp only [List.mem_singleton] at hi
                  simp [hi]
              have h := stopsAfterSchedules_map_stopped
                (s.activeSources ++ [s.nextId]) (s.nextId :: seen) hsub'
              simp only [step, heq]
              simpa [stopsAfterSchedules] using h.1
            · simp [step, heq]

/-- Along any trace from the post-`startSession` state, every stop
notification concerns a segment scheduled earlier in the same trace. -/
theorem runTrace_stops_ordered (decode : List Nat → Option ℚ) :
    ∀ (es : List Event) (s : AgentState) (seen : List Nat),
    (∀ i ∈ s.activeSources, i ∈ seen) →
    stopsAfterSchedules seen (runTrace decode s es) = true := by
  intro es
  induction es with
  | nil => intro s seen _; rfl
  | cons e es ih =>
    intro s seen hsub
    have hstep := step_stops_spec decode s e seen hsub
    rw [show runTrace decode s (e :: es) =
        (step decode s e).2 ++ runTrace decode (step decode s e).1 es
      from rfl, stopsAfterSchedules_append, hstep.1, Bool.true_and]
    exact ih (step decode s e).1 (seenAfter seen (step decode s e).2) hstep.2

/-- C3: inbound channel events are processed strictly in arrival order.
Conjuncts: (1) dispatching a concatenation of event lists runs the first
list to completion before the second begins (each handler runs atomically
and the trace is the in-order concatenation of per-event effects); (2)
scheduled segment ids are strictly increasing along every trace, i.e.
playback segments are scheduled exactly in the order their bytes arrived;
(3) from the post-`startSession` state, no interruption (or teardown)
stops a segment before the audio-chunk event that created it has been
scheduled. -/
theorem inbound_events_processed_in_order (decode : List Nat → Option ℚ) :
    (∀ (s : AgentState) (es₁ es₂ : List Event),
      runTrace decode s (es₁ ++ es₂) =
        runTrace decode s es₁ ++
          runTrace decode (runState decode s es₁) es₂) ∧
    (∀ (s : AgentState) (es : List Event),
      List.Chain' (· < ·) (schedIds (runTrace decode s es))) ∧
    (∀ es : List Event,
      stopsAfterSchedules [] (runTrace decode startSessionState es) = true) := by
  refine ⟨?_, ?_, ?_⟩
  · intro s es₁ es₂
    induction es₁ generalizing s with
    | nil => rfl
    | cons e es₁ ih => simp [runTrace, runState, ih]
  · intro s es
    exact (runTrace_ids_increasing decode es s).1
  · intro es
    exact runTrace_stops_ordered decode es startSessionState []
      (by simp [startSessionState])

/-- No base64 alphabet character is the padding character `=` (61). -/
theorem b64char_ne_pad (i : Nat) : b64char i ≠ 61 := by
  unfold b64char
  split_ifs <;> omega

/-- The base64 alphabet is inverted by `b64index` on sextet values. -/
theorem b64index_b64char (i : Nat) (h : i < 64) : b64index (b64char i) = i := by
  unfold b64char b64index
  split_ifs <;> omega

/-- Base64 decoding inverts base64 encoding on byte lists. -/
theorem b64decode_b64encode (bs : List Nat) (h : ∀ b ∈ bs, b < 256) :
    b64decode (b64encode bs) = bs := by
  induction bs using b64encode.induct with
  | case1 => rfl
  | case2 b0 =>
    have hb0 := h b0 (by simp)
    simp only [b64encode, b64decode, if_pos rfl]
    rw [b64index_b64char _ (by omega), b64index_b64char _ (by omega)]
    simp
    omega
  | case3 b0 b1 =>
    have hb0 := h b0 (by simp)
    have hb1 := h b1 (by simp)
    simp only [b64encode, b64decode,
      if_neg (b64char_ne_pad (b1 % 16 * 4)), if_pos rfl]
    rw [b64index_b64char _ (by omega), b64index_b64char _ (by omega),
      b64index_b64char _ (by omega)]
    simp
    omega
  | case4 b0 b1 b2 rest ih =>
    have hb0 := h b0 (by simp)
    have hb1 := h b1 (by simp)
    have hb2 := h b2 (by simp)
    have hrest := ih fun b hb => h b (by simp [hb])
    simp only [b64encode, b64decode,
      if_neg (b64char_ne_pad (b1 % 16 * 4 + b2 / 64)),
      if_neg (b64char_ne_pad (b2 % 64))]
    rw [b64index_b64char _ (by omega), b64index_b64char _ (by omega),
      b64index_b64char _ (by omega), b64index_b64char _ (by omega), hrest]
    simp
    omega

/-- Little-endian byte packing of a 16-bit signed integer is inverted by
`int16OfBytes`. -/
theorem int16OfBytes_int16ToBytes (q : ℤ) (h1 : -32768 ≤ q)
    (h2 : q < 32768) :
    int16OfBytes (u16ofInt q % 256) (u16ofInt q / 256) = q := by
  have hmod : (u16ofInt q : ℤ) = q % 65536 := by
    unfold u16ofInt
    exact Int.toNat_of_nonneg (Int.emod_nonneg q (by norm_num))
  unfold int16OfBytes
  split_ifs with h <;> omega

/-- The two bytes of a packed 16-bit integer are valid byte values. -/
theorem int16ToBytes_lt (q : ℤ) : ∀ b ∈ int16ToBytes q, b < 256 := by
  have hm : q % 65536 < 65536 := Int.emod_lt_of_pos q (by norm_num)
  have h0 : 0 ≤ q % 65536 := Int.emod_nonneg q (by norm_num)
  intro b hb
  unfold int16ToBytes at hb
  simp only [List.mem_cons, List.not_mem_nil, or_false] at hb
  unfold u16ofInt at hb
  rcases hb with rfl | rfl <;> omega

/-- Unpacking consecutive little-endian byte pairs inverts the packing of
a list of 16-bit signed integers. -/
theorem bytesToInt16s_flatten (qs : List ℤ)
    (h : ∀ q ∈ qs, -32768 ≤ q ∧ q < 32768) :
    bytesToInt16s ((qs.map int16ToBytes).flatten) = qs := by
  induction qs with
  | nil => rfl
  | cons q qs ih =>
    obtain ⟨h1, h2⟩ := h q (by simp)
    simp only [List.map_cons, List.flatten_cons]
    rw [show int16ToBytes q ++ ((qs.map int16ToBytes).flatten) =
        u16ofInt q % 256 :: u16ofInt q / 256 ::
          ((qs.map int16ToBytes).flatten) from rfl]
    rw [show bytesToInt16s (u16ofInt q % 256 :: u16ofInt q / 256 ::
        ((qs.map int16ToBytes).flatten)) =
        int16OfBytes (u16ofInt q % 256) (u16ofInt q / 256) ::
          bytesToInt16s ((qs.map int16ToBytes).flatten) from rfl]
    rw [int16OfBytes_int16ToBytes q h1 h2, ih fun p hp => h p (by simp [hp])]

/-- Every clamped sample lies in [-1, 1]. -/
theorem clampSample_bounds (s : Option ℚ) :
    -1 ≤ clampSample s ∧ clampSample s ≤ 1 := by
  rcases s with _ | v
  · exact ⟨by norm_num [clampSample], by norm_num [clampSample]⟩
  · constructor
    · exact le_max_left _ _
    · exact max_le (by norm_num) (min_le_left _ _)

/-- The quantized clamped sample fits a 16-bit signed integer. -/
theorem quantize_clamp_range (s : Option ℚ) :
    -32768 ≤ quantize (clampSample s) ∧ quantize (clampSample s) < 32768 := by
  obtain ⟨hl, hr⟩ := clampSample_bounds s
  unfold quantize
  constructor
  · have : (-32768 : ℚ) ≤ clampSample s * 32767 := by nlinarith
    exact_mod_cast Int.le_floor.2 (by exact_mod_cast this)
  · have : clampSample s * 32767 < 32768 := by nlinarith
    have hf := Int.floor_le (clampSample s * 32767)
    have : (⌊clampSample s * 32767⌋ : ℚ) < 32768 := lt_of_le_of_lt hf this
    exact_mod_cast this

/-- Quantizing and un-quantizing a sample loses at most one least
significant bit (1/32767). -/
theorem dequantize_quantize_close (x : ℚ) :
    |dequantize (quantize x) - x| ≤ 1 / 32767 := by
  unfold dequantize quantize
  have h1 := Int.floor_le (x * 32767)
  have h2 := Int.lt_floor_add_one (x * 32767)
  rw [abs_le]
  constructor
  · rw [div_sub' _ _ _ (by norm_num : (32767 : ℚ) ≠ 0), neg_le,
      ← neg_div, div_le_div_iff₀ (by norm_num) (by norm_num)]
    nlinarith
  · rw [div_sub' _ _ _ (by norm_num : (32767 : ℚ) ≠ 0),
      div_le_div_iff₀ (by norm_num) (by norm_num)]
    nlinarith

/-- C9: the Signal Framer's payload decodes back to exactly the
quantized clamped samples — clamping to [-1, 1] (malformed samples to 0),
16-bit scaling, little-endian packing and base64 encoding are all
inverted — and each decoded sample is within one least significant bit
(1/32767) of the corresponding original clamped sample. -/
theorem createPcmBlob_roundtrip (samples : List (Option ℚ)) :
    decodePcmPayload (createPcmBlob samples) =
      samples.map (fun s => dequantize (quantize (clampSample s))) ∧
    ∀ s : Option ℚ,
      |dequantize (quantize (clampSample s)) - clampSample s| ≤ 1 / 32767 := by
  constructor
  · unfold decodePcmPayload createPcmBlob
    rw [show (samples.map fun s => int16ToBytes (quantize (clampSample s)))
        = ((samples.map fun s => quantize (clampSample s)).map int16ToBytes)
      from by simp, b64decode_b64encode, bytesToInt16s_flatten]
    · simp
    · intro q hq
      simp only [List.mem_map] at hq
      obtain ⟨s, _, rfl⟩ := hq
      exact quantize_clamp_range s
    · intro b hb
      simp only [List.mem_flatten, List.mem_map] at hb
      obtain ⟨l, ⟨q, ⟨s, _, rfl⟩, rfl⟩, hbl⟩ := hb
      exact int16ToBytes_lt _ b hbl
  · intro s
    exact dequantize_quantize_close (clampSample s)

end StudioAgent
